import Mathlib

/-!
# Verification of the steam-shelf binary VDF codec and shortcut serialization

This file embeds in Lean the parts of the repository the claims are about:

* `src/vdf_utils.py` — `parse_vdf` (binary VDF decoder) and
  `write_binary_vdf` (binary VDF encoder),
* `src/src/core/utils/shortcut_utils.py` — `generate_shortcut_appid`,
* `src/vdf_serializer.py` and `src/NonSteamGame.py` — the shortcut record
  mapping.

Modelling conventions:

* Byte buffers are `List Nat` (each element a byte value).  The Python
  decoder walks a single advancing offset over the buffer; here a read
  consumes a prefix of the list and returns the remaining suffix, which is
  the standard state-passing form of a forward-only cursor.  "The cursor
  advances to end-of-buffer" becomes "the remaining suffix is `[]`".
* Python `str` values that flow through the codec are represented by their
  UTF-8 byte sequences (`List Nat`): both `write_cstring` (which calls
  `encode('utf-8')`) and `read_cstring` (which calls `decode('utf-8')`)
  transcode between `str` and exactly these bytes, and UTF-8 is injective
  on valid Unicode strings, so the byte sequence determines the string.
* Python `int` is unbounded: modelled as `Int` (`Nat` where the source can
  only produce non-negatives).  The masks `& 0xFFFFFFFF` /
  `& 0xFFFFFFFFFFFFFFFF` on an `Int` are `Int.emod` by `2^32` / `2^64`.
* Python `float` values in the codec exist only to be packed to / unpacked
  from 4 little-endian IEEE-754 float32 bytes (`struct.pack('<f', v)` /
  `struct.unpack('<f', ...)`); a float value is represented by its 32-bit
  pattern (`Nat` below `2^32`).  `0.0` has bit pattern `0`.
-/

namespace SteamShelf

/-- A value of the in-memory key/value tree that `parse_vdf` returns and
`write_binary_vdf` consumes: a Python `dict` (ordered association list; the
spec's Section), a `str` (UTF-8 bytes), an `int`, or a `float` (float32 bit
pattern). -/
inductive Value where
  | dict (entries : List (List Nat × Value))
  | str (s : List Nat)
  | int (n : Int)
  | float (bits : Nat)

/-- A Python dict of VDF entries: ordered list of (key, value) pairs with
insertion order significant, as Python dicts preserve it. -/
abbrev Entries := List (List Nat × Value)

/-- Python `result[key] = v` on a dict: if the key is present its value is
updated in place (position retained), otherwise the pair is appended. -/
def dictInsert (k : List Nat) (v : Value) (m : Entries) : Entries :=
  if m.any (fun p => p.1 == k) then
    m.map (fun p => if p.1 == k then (k, v) else p)
  else
    m ++ [(k, v)]

/-- The scanning loop of `read_cstring`
(`while offset < length and data[offset] != 0`): split the buffer at the
first `0x00`, returning the bytes before it and the suffix after it;
`none` when the buffer runs out before a `0x00` is found. -/
def cstr_split : List Nat → Option (List Nat × List Nat)
  | [] => none
  | b :: rest =>
    if b = 0 then some ([], rest)
    else (cstr_split rest).map (fun p => (b :: p.1, p.2))

/-- `read_cstring` of `parse_vdf`: scan for the first `0x00`; if found,
return the bytes before it and skip the terminator; if the buffer ends
first, return the EMPTY string with the cursor at end-of-buffer (the
scanned bytes are discarded: `if offset >= length: return ""`). -/
def read_cstring (data : List Nat) : List Nat × List Nat :=
  match cstr_split data with
  | some (s, r) => (s, r)
  | none => ([], [])

/-- `read_int32`: 4 little-endian bytes as an unsigned 32-bit value, or `0`
without consuming anything if fewer than 4 bytes remain. -/
def read_int32 (data : List Nat) : Nat × List Nat :=
  if data.length < 4 then (0, data)
  else (data.getD 0 0 + 2^8 * data.getD 1 0 + 2^16 * data.getD 2 0 +
        2^24 * data.getD 3 0, data.drop 4)

/-- `read_int64`: 8 little-endian bytes as an unsigned 64-bit value, or `0`
without consuming anything if fewer than 8 bytes remain. -/
def read_int64 (data : List Nat) : Nat × List Nat :=
  if data.length < 8 then (0, data)
  else (data.getD 0 0 + 2^8 * data.getD 1 0 + 2^16 * data.getD 2 0 +
        2^24 * data.getD 3 0 + 2^32 * data.getD 4 0 + 2^40 * data.getD 5 0 +
        2^48 * data.getD 6 0 + 2^56 * data.getD 7 0, data.drop 8)

/-- `read_float32`: 4 bytes as a float32 bit pattern, or `0.0` (pattern 0)
without consuming anything if fewer than 4 bytes remain. -/
def read_float32 (data : List Nat) : Nat × List Nat :=
  if data.length < 4 then (0, data)
  else (data.getD 0 0 + 2^8 * data.getD 1 0 + 2^16 * data.getD 2 0 +
        2^24 * data.getD 3 0, data.drop 4)

/-- The synthetic key `f"_subsection_{n}"` used for a subsection whose own
key decoded as the empty string, as UTF-8 bytes. -/
def synthKey (n : Nat) : List Nat :=
  (("_subsection_" ++ toString n).data).map Char.toNat

theorem cstr_split_length (data : List Nat) :
    ∀ s r, cstr_split data = some (s, r) →
      data.length = s.length + 1 + r.length := by
  induction data with
  | nil => intro s r h; simp [cstr_split] at h
  | cons b rest ih =>
    intro s r h
    by_cases hb : b = 0
    · simp [cstr_split, hb] at h
      obtain ⟨rfl, rfl⟩ := h
      simp [Nat.add_comm]
    · simp only [cstr_split, if_neg hb, Option.map_eq_some'] at h
      obtain ⟨⟨p1, p2⟩, hp, hps⟩ := h
      injection hps with h1 h2
      subst h1; subst h2
      have := ih p1 p2 hp
      simp [List.length_cons, this]
      omega

theorem read_cstring_length_le (data : List Nat) :
    (read_cstring data).2.length ≤ data.length := by
  unfold read_cstring
  cases h : cstr_split data with
  | none => simp
  | some p =>
    have := cstr_split_length data p.1 p.2 (by simpa using h)
    simp
    omega

theorem read_int32_length_le (data : List Nat) :
    (read_int32 data).2.length ≤ data.length := by
  unfold read_int32
  split <;> simp [List.length_drop]

theorem read_int64_length_le (data : List Nat) :
    (read_int64 data).2.length ≤ data.length := by
  unfold read_int64
  split <;> simp [List.length_drop]

theorem read_float32_length_le (data : List Nat) :
    (read_float32 data).2.length ≤ data.length := by
  unfold read_float32
  split <;> simp [List.length_drop]

/-- `parse_section` of `parse_vdf`.  The Python function loops over the
buffer through a mutable offset and recurses into subsections; here the
loop is tail recursion with the accumulated dict `acc`, the cursor is the
remaining suffix, and an explicit fuel counter bounds the number of loop
iterations (`none` = fuel exhausted; `parse_section_total` below shows
`data.length + 1` iterations always suffice, so `none` is unreachable from
`parse_vdf`).  Branches in source order: end-of-section on `0x08` or
end-of-buffer; skip entries with an empty key and a non-subsection tag;
tags `0x00` (subsection, synthetic key when the key is empty), `0x01`
(string), `0x02` (int32), `0x03` (float32), `0x07` (int64); any other tag
is read as a string. -/
def parse_section : Nat → List Nat → Entries → Option (Entries × List Nat)
  | 0, _, _ => none
  | _ + 1, [], acc => some (acc, [])
  | fuel + 1, t :: rest, acc =>
    if t = 8 then some (acc, rest)
    else
      let kr := read_cstring rest
      if kr.1 = [] ∧ t ≠ 0 then
        parse_section fuel kr.2 acc
      else if t = 0 then
        let key := if kr.1 = [] then synthKey acc.length else kr.1
        match parse_section fuel kr.2 [] with
        | none => none
        | some (sub, rest2) =>
          parse_section fuel rest2 (dictInsert key (.dict sub) acc)
      else if t = 1 then
        let vr := read_cstring kr.2
        parse_section fuel vr.2 (dictInsert kr.1 (.str vr.1) acc)
      else if t = 2 then
        let vr := read_int32 kr.2
        parse_section fuel vr.2 (dictInsert kr.1 (.int (vr.1 : Int)) acc)
      else if t = 3 then
        let vr := read_float32 kr.2
        parse_section fuel vr.2 (dictInsert kr.1 (.float vr.1) acc)
      else if t = 7 then
        let vr := read_int64 kr.2
        parse_section fuel vr.2 (dictInsert kr.1 (.int (vr.1 : Int)) acc)
      else
        let vr := read_cstring kr.2
        parse_section fuel vr.2 (dictInsert kr.1 (.str vr.1) acc)

/-- `parse_vdf`: parse one top-level section of the whole buffer (the fuel
`data.length + 1` always suffices, see `parse_section_total`). -/
def parse_vdf (data : List Nat) : Entries :=
  ((parse_section (data.length + 1) data []).getD ([], [])).1

/-- `write_cstring` of `write_binary_vdf`: UTF-8 bytes of the string
followed by a single `0x00` terminator. -/
def write_cstring (s : List Nat) : List Nat := s ++ [0]

/-- `struct.pack('<I', m)` for `m < 2^32`: 4 little-endian bytes. -/
def le32 (m : Nat) : List Nat :=
  [m % 2^8, m / 2^8 % 2^8, m / 2^16 % 2^8, m / 2^24 % 2^8]

/-- `struct.pack('<Q', m)` for `m < 2^64`: 8 little-endian bytes. -/
def le64 (m : Nat) : List Nat :=
  [m % 2^8, m / 2^8 % 2^8, m / 2^16 % 2^8, m / 2^24 % 2^8,
   m / 2^32 % 2^8, m / 2^40 % 2^8, m / 2^48 % 2^8, m / 2^56 % 2^8]

mutual

/-- `encode_value` of `write_binary_vdf`: one type byte, the cstring key,
then the type-specific payload.  An `int` in
`-2147483648 ≤ v ≤ 4294967295` is written as Int32 (tag `0x02`) with its
low 32 bits (`value & 0xFFFFFFFF`, i.e. `v mod 2^32`); any other `int` as
Int64 (tag `0x07`) with `value & 0xFFFFFFFFFFFFFFFF`. -/
def encode_value (key : List Nat) : Value → List Nat
  | .dict es => 0 :: (write_cstring key ++ encode_entries es ++ [8])
  | .str s => 1 :: (write_cstring key ++ write_cstring s)
  | .int n =>
    if -2147483648 ≤ n ∧ n ≤ 4294967295 then
      2 :: (write_cstring key ++ le32 (n % (2^32 : Int)).toNat)
    else
      7 :: (write_cstring key ++ le64 (n % (2^64 : Int)).toNat)
  | .float bits => 3 :: (write_cstring key ++ le32 bits)

/-- Concatenated encodings of a dict's entries, in insertion order. -/
def encode_entries : Entries → List Nat
  | [] => []
  | (k, v) :: es => encode_value k v ++ encode_entries es

end

/-- `write_binary_vdf`: concatenation of the top-level entries' encodings
followed by exactly one trailing `0x08` end marker.  (The file write
itself is I/O done by the caller; the modelled contract is the produced
byte buffer.) -/
def write_binary_vdf (data : Entries) : List Nat :=
  encode_entries data ++ [8]

theorem cstr_split_terminated (s r : List Nat) (h : 0 ∉ s) :
    cstr_split (s ++ 0 :: r) = some (s, r) := by
  induction s with
  | nil => simp [cstr_split]
  | cons a s ih =>
    have ha : a ≠ 0 := fun hc => h (by simp [hc])
    have hs : 0 ∉ s := fun hc => h (by simp [hc])
    simp [cstr_split, ha, ih hs]

theorem read_cstring_terminated (s r : List Nat) (h : 0 ∉ s) :
    read_cstring (s ++ 0 :: r) = (s, r) := by
  simp [read_cstring, cstr_split_terminated s r h]

theorem cstr_split_unterminated (data : List Nat) (h : 0 ∉ data) :
    cstr_split data = none := by
  induction data with
  | nil => simp [cstr_split]
  | cons a s ih =>
    have ha : a ≠ 0 := fun hc => h (by simp [hc])
    have hs : 0 ∉ s := fun hc => h (by simp [hc])
    simp [cstr_split, ha, ih hs]

theorem read_cstring_unterminated (data : List Nat) (h : 0 ∉ data) :
    read_cstring data = ([], []) := by
  simp [read_cstring, cstr_split_unterminated data h]

theorem read_int32_le32 (m : Nat) (r : List Nat) (hm : m < 2^32) :
    read_int32 (le32 m ++ r) = (m, r) := by
  have hlen : (le32 m ++ r).length = 4 + r.length := by simp [le32]; omega
  unfold read_int32
  rw [if_neg (by omega)]
  simp only [le32, List.cons_append, List.nil_append, List.getD_cons_zero,
    List.getD_cons_succ, List.drop_succ_cons, List.drop_zero]
  rw [Prod.mk.injEq]
  exact ⟨by omega, rfl⟩

theorem read_int64_le64 (m : Nat) (r : List Nat) (hm : m < 2^64) :
    read_int64 (le64 m ++ r) = (m, r) := by
  have hlen : (le64 m ++ r).length = 8 + r.length := by simp [le64]; omega
  unfold read_int64
  rw [if_neg (by omega)]
  simp only [le64, List.cons_append, List.nil_append, List.getD_cons_zero,
    List.getD_cons_succ, List.drop_succ_cons, List.drop_zero]
  rw [Prod.mk.injEq]
  exact ⟨by omega, rfl⟩

theorem read_float32_eq_read_int32 (data : List Nat) :
    read_float32 data = read_int32 data := rfl

theorem dictInsert_of_not_mem (k : List Nat) (v : Value) (m : Entries)
    (h : ∀ q ∈ m, q.1 ≠ k) : dictInsert k v m = m ++ [(k, v)] := by
  unfold dictInsert
  rw [if_neg]
  simp only [List.any_eq_true, not_exists, not_and]
  intro q hq
  simpa using h q hq

theorem parse_section_le (fuel : Nat) :
    ∀ (data : List Nat) (acc : Entries) (r : Entries × List Nat),
      parse_section fuel data acc = some r →
      r.2.length ≤ data.length ∧ (data ≠ [] → r.2.length < data.length) := by
  induction fuel with
  | zero => intro data acc r h; simp [parse_section] at h
  | succ fuel ih =>
    intro data acc r h
    cases data with
    | nil =>
      simp only [parse_section, Option.some.injEq] at h
      subst h
      simp
    | cons t rest =>
      have hcons : r.2.length ≤ rest.length := by
        simp only [parse_section] at h
        split at h
        · injection h with h
          subst h
          simp
        · split at h
          · exact le_trans ((ih _ _ _ h).1) (read_cstring_length_le rest)
          · split at h
            · split at h
              · cases h
              · rename_i sub rest2 heq
                have h1 : rest2.length ≤ (read_cstring rest).2.length := by
                  simpa using (ih _ _ _ heq).1
                have h2 := (ih _ _ _ h).1
                have h3 := read_cstring_length_le rest
                omega
            · split at h
              · have h1 := (ih _ _ _ h).1
                have h2 := read_cstring_length_le (read_cstring rest).2
                have h3 := read_cstring_length_le rest
                omega
              · split at h
                · have h1 := (ih _ _ _ h).1
                  have h2 := read_int32_length_le (read_cstring rest).2
                  have h3 := read_cstring_length_le rest
                  omega
                · split at h
                  · have h1 := (ih _ _ _ h).1
                    have h2 := read_float32_length_le (read_cstring rest).2
                    have h3 := read_cstring_length_le rest
                    omega
                  · split at h
                    · have h1 := (ih _ _ _ h).1
                      have h2 := read_int64_length_le (read_cstring rest).2
                      have h3 := read_cstring_length_le rest
                      omega
                    · have h1 := (ih _ _ _ h).1
                      have h2 := read_cstring_length_le (read_cstring rest).2
                      have h3 := read_cstring_length_le rest
                      omega
      refine ⟨by simp; omega, fun _ => by simp; omega⟩

theorem parse_section_total (fuel : Nat) :
    ∀ (data : List Nat) (acc : Entries), data.length < fuel →
      ∃ r, parse_section fuel data acc = some r := by
  induction fuel with
  | zero => intro data acc h; omega
  | succ fuel ih =>
    intro data acc hlt
    cases data with
    | nil => exact ⟨(acc, []), by simp [parse_section]⟩
    | cons t rest =>
      have hrest : rest.length < fuel := by simp at hlt; omega
      have hkey := read_cstring_length_le rest
      simp only [parse_section]
      split
      · exact ⟨(acc, rest), rfl⟩
      · split
        · exact ih _ _ (by omega)
        · split
          · obtain ⟨⟨sub, rest2⟩, hsub⟩ := ih (read_cstring rest).2 [] (by omega)
            rw [hsub]
            have h1 : rest2.length ≤ (read_cstring rest).2.length := by
              simpa using (parse_section_le fuel _ _ _ hsub).1
            exact ih _ _ (by omega)
          · split
            · have h2 := read_cstring_length_le (read_cstring rest).2
              exact ih _ _ (by omega)
            · split
              · have h2 := read_int32_length_le (read_cstring rest).2
                exact ih _ _ (by omega)
              · split
                · have h2 := read_float32_length_le (read_cstring rest).2
                  exact ih _ _ (by omega)
                · split
                  · have h2 := read_int64_length_le (read_cstring rest).2
                    exact ih _ _ (by omega)
                  · have h2 := read_cstring_length_le (read_cstring rest).2
                    exact ih _ _ (by omega)

theorem parse_section_mono (fuel : Nat) :
    ∀ (fuel' : Nat) (data : List Nat) (acc : Entries) (r : Entries × List Nat),
      parse_section fuel data acc = some r → fuel ≤ fuel' →
      parse_section fuel' data acc = some r := by
  induction fuel with
  | zero => intro fuel' data acc r h _; simp [parse_section] at h
  | succ fuel ih =>
    intro fuel' data acc r h hle
    cases fuel' with
    | zero => omega
    | succ fuel' =>
      have hle' : fuel ≤ fuel' := by omega
      cases data with
      | nil => simpa [parse_section] using h
      | cons t rest =>
        simp only [parse_section] at h ⊢
        split at h
        · rename_i h8
          rw [if_pos h8]
          exact h
        · rename_i h8
          rw [if_neg h8]
          split at h
          · rename_i hskip
            rw [if_pos hskip]
            exact ih _ _ _ _ h hle'
          · rename_i hskip
            rw [if_neg hskip]
            split at h
            · rename_i h0
              rw [if_pos h0]
              split at h
              · cases h
              · rename_i sub rest2 heq
                rw [ih _ _ _ _ heq hle']
                exact ih _ _ _ _ h hle'
            · rename_i h0
              rw [if_neg h0]
              split at h
              · rename_i h1
                rw [if_pos h1]
                exact ih _ _ _ _ h hle'
              · rename_i h1
                rw [if_neg h1]
                split at h
                · rename_i h2
                  rw [if_pos h2]
                  exact ih _ _ _ _ h hle'
                · rename_i h2
                  rw [if_neg h2]
                  split at h
                  · rename_i h3
                    rw [if_pos h3]
                    exact ih _ _ _ _ h hle'
                  · rename_i h3
                    rw [if_neg h3]
                    split at h
                    · rename_i h7
                      rw [if_pos h7]
                      exact ih _ _ _ _ h hle'
                    · rename_i h7
                      rw [if_neg h7]
                      exact ih _ _ _ _ h hle'

/-- With any adequate fuel the result agrees with the canonical fuel
`data.length + 1` used by `parse_vdf`. -/
theorem parse_section_fuel_eq (fuel : Nat) (data : List Nat) (acc : Entries)
    (h : data.length < fuel) :
    parse_section fuel data acc = parse_section (data.length + 1) data acc := by
  obtain ⟨r, hr⟩ := parse_section_total (data.length + 1) data acc (by omega)
  rw [hr, parse_section_mono (data.length + 1) fuel data acc r hr (by omega)]

theorem parse_section_step_end (f : Nat) (T : List Nat) (acc : Entries) :
    parse_section (f + 1) (8 :: T) acc = some (acc, T) := by
  simp [parse_section]

theorem parse_section_step_str (f : Nat) (k s T : List Nat) (acc : Entries)
    (hk1 : k ≠ []) (hk0 : 0 ∉ k) (hs : 0 ∉ s) :
    parse_section (f + 1) (1 :: (k ++ 0 :: (s ++ 0 :: T))) acc =
      parse_section f T (dictInsert k (.str s) acc) := by
  simp only [parse_section, read_cstring_terminated k _ hk0,
    read_cstring_terminated s _ hs]
  simp [hk1]

theorem parse_section_step_int32 (f m : Nat) (k T : List Nat) (acc : Entries)
    (hk1 : k ≠ []) (hk0 : 0 ∉ k) (hm : m < 2^32) :
    parse_section (f + 1) (2 :: (k ++ 0 :: (le32 m ++ T))) acc =
      parse_section f T (dictInsert k (.int (m : Int)) acc) := by
  simp only [parse_section, read_cstring_terminated k _ hk0,
    read_int32_le32 m T hm]
  simp [hk1]

theorem parse_section_step_float32 (f m : Nat) (k T : List Nat) (acc : Entries)
    (hk1 : k ≠ []) (hk0 : 0 ∉ k) (hm : m < 2^32) :
    parse_section (f + 1) (3 :: (k ++ 0 :: (le32 m ++ T))) acc =
      parse_section f T (dictInsert k (.float m) acc) := by
  simp only [parse_section, read_cstring_terminated k _ hk0,
    read_float32_eq_read_int32, read_int32_le32 m T hm]
  simp [hk1]

theorem parse_section_step_int64 (f m : Nat) (k T : List Nat) (acc : Entries)
    (hk1 : k ≠ []) (hk0 : 0 ∉ k) (hm : m < 2^64) :
    parse_section (f + 1) (7 :: (k ++ 0 :: (le64 m ++ T))) acc =
      parse_section f T (dictInsert k (.int (m : Int)) acc) := by
  simp only [parse_section, read_cstring_terminated k _ hk0,
    read_int64_le64 m T hm]
  simp [hk1]

theorem parse_section_step_dict (f : Nat) (k T : List Nat) (acc : Entries)
    (hk1 : k ≠ []) (hk0 : 0 ∉ k) :
    parse_section (f + 1) (0 :: (k ++ 0 :: T)) acc =
      match parse_section f T [] with
      | none => none
      | some (sub, rest2) =>
        parse_section f rest2 (dictInsert k (.dict sub) acc) := by
  simp only [parse_section, read_cstring_terminated k T hk0]
  simp [hk1]

theorem parse_section_step_dict_empty (f : Nat) (T : List Nat) (acc : Entries) :
    parse_section (f + 1) (0 :: 0 :: T) acc =
      match parse_section f T [] with
      | none => none
      | some (sub, rest2) =>
        parse_section f rest2 (dictInsert (synthKey acc.length) (.dict sub) acc) := by
  simp only [parse_section]
  simp [read_cstring, cstr_split]

theorem parse_section_step_skip (f t : Nat) (T : List Nat) (acc : Entries)
    (h8 : t ≠ 8) (h0 : t ≠ 0) :
    parse_section (f + 1) (t :: 0 :: T) acc = parse_section f T acc := by
  simp only [parse_section]
  simp [read_cstring, cstr_split, h8, h0]

mutual

/-- A value a Python dict can round-trip through the codec: strings
(UTF-8 byte sequences of real `str` values) contain no `0x00` byte,
integers are the non-negative values below `2^64` that the masks keep
(the decoder can only ever produce such values), float bit patterns fit
32 bits, and nested dicts are recursively well-formed. -/
def WFv : Value → Prop
  | .dict es => WFe es
  | .str s => 0 ∉ s
  | .int n => 0 ≤ n ∧ n < 2^64
  | .float bits => bits < 2^32

/-- A well-formed dict: every key is non-empty, contains no `0x00` byte
and occurs once (a Python dict cannot hold duplicate keys), and every
value is well-formed. -/
def WFe : Entries → Prop
  | [] => True
  | (k, v) :: es => k ≠ [] ∧ 0 ∉ k ∧ (∀ p ∈ es, p.1 ≠ k) ∧ WFv v ∧ WFe es

end

/-- Parsing the encoding of well-formed entries followed by any suffix
consumes exactly the encoding, appends the entries to the accumulator
unchanged, and continues on the suffix. -/
theorem parse_encode_entries (es : Entries) (acc : Entries) (rest : List Nat)
    (fuel : Nat) (hwf : WFe es)
    (hdisj : ∀ p ∈ es, ∀ q ∈ acc, q.1 ≠ p.1)
    (hfuel : (encode_entries es ++ rest).length < fuel) :
    parse_section fuel (encode_entries es ++ rest) acc =
      parse_section (rest.length + 1) rest (acc ++ es) := by
  match es with
  | [] =>
    simp only [encode_entries, List.nil_append] at hfuel ⊢
    rw [parse_section_fuel_eq fuel rest acc hfuel, List.append_nil]
  | (k, v) :: es' =>
    rw [WFe] at hwf
    obtain ⟨hk1, hk0, hnodup, hv, hwf'⟩ := hwf
    have hins : ∀ X : Value, dictInsert k X acc = acc ++ [(k, X)] :=
      fun X => dictInsert_of_not_mem k X acc
        (fun q hq => hdisj (k, v) (by simp) q hq)
    have hdisj' : ∀ X : Value, ∀ p ∈ es', ∀ q ∈ acc ++ [(k, X)], q.1 ≠ p.1 := by
      intro X p hp q hq
      rcases List.mem_append.mp hq with hqa | hqk
      · exact hdisj p (by simp [hp]) q hqa
      · have : q = (k, X) := by simpa using hqk
        rw [this]
        exact fun hc => hnodup p hp hc.symm
    have happ : ∀ X : Value,
        (acc ++ [(k, X)]) ++ es' = acc ++ ((k, X) :: es') := by
      intro X
      rw [← List.append_cons]
    cases v with
    | str s =>
      have hs : 0 ∉ s := hv
      have hdata : encode_entries ((k, Value.str s) :: es') ++ rest =
          1 :: (k ++ 0 :: (s ++ 0 :: (encode_entries es' ++ rest))) := by
        simp [encode_entries, encode_value, write_cstring]
      rw [hdata] at hfuel ⊢
      cases fuel with
      | zero => omega
      | succ f =>
        rw [parse_section_step_str f k s _ acc hk1 hk0 hs, hins,
          parse_encode_entries es' (acc ++ [(k, Value.str s)]) rest f hwf'
            (hdisj' _) (by simp at hfuel ⊢; omega),
          happ]
    | int n =>
      obtain ⟨hn0, hn64⟩ := hv
      have hcast : ((n.toNat : Nat) : Int) = n := Int.toNat_of_nonneg hn0
      by_cases hsmall : n ≤ 4294967295
      · have hmod : n % (2^32 : Int) = n := Int.emod_eq_of_lt hn0 (by omega)
        have henc : encode_value k (Value.int n) =
            2 :: (write_cstring k ++ le32 n.toNat) := by
          rw [encode_value, if_pos ⟨by omega, hsmall⟩, hmod]
        have hdata : encode_entries ((k, Value.int n) :: es') ++ rest =
            2 :: (k ++ 0 :: (le32 n.toNat ++ (encode_entries es' ++ rest))) := by
          simp [encode_entries, henc, write_cstring]
        rw [hdata] at hfuel ⊢
        cases fuel with
        | zero => omega
        | succ f =>
          rw [parse_section_step_int32 f n.toNat k _ acc hk1 hk0 (by omega),
            hcast, hins,
            parse_encode_entries es' (acc ++ [(k, Value.int n)]) rest f hwf'
              (hdisj' _) (by simp [le32] at hfuel ⊢; omega),
            happ]
      · have hmod : n % (2^64 : Int) = n := Int.emod_eq_of_lt hn0 (by omega)
        have henc : encode_value k (Value.int n) =
            7 :: (write_cstring k ++ le64 n.toNat) := by
          rw [encode_value, if_neg (by omega), hmod]
        have hdata : encode_entries ((k, Value.int n) :: es') ++ rest =
            7 :: (k ++ 0 :: (le64 n.toNat ++ (encode_entries es' ++ rest))) := by
          simp [encode_entries, henc, write_cstring]
        rw [hdata] at hfuel ⊢
        cases fuel with
        | zero => omega
        | succ f =>
          rw [parse_section_step_int64 f n.toNat k _ acc hk1 hk0 (by omega),
            hcast, hins,
            parse_encode_entries es' (acc ++ [(k, Value.int n)]) rest f hwf'
              (hdisj' _) (by simp [le64] at hfuel ⊢; omega),
            happ]
    | float bits =>
      have hb : bits < 2^32 := hv
      have hdata : encode_entries ((k, Value.float bits) :: es') ++ rest =
          3 :: (k ++ 0 :: (le32 bits ++ (encode_entries es' ++ rest))) := by
        simp [encode_entries, encode_value, write_cstring]
      rw [hdata] at hfuel ⊢
      cases fuel with
      | zero => omega
      | succ f =>
        rw [parse_section_step_float32 f bits k _ acc hk1 hk0 hb, hins,
          parse_encode_entries es' (acc ++ [(k, Value.float bits)]) rest f hwf'
            (hdisj' _) (by simp [le32] at hfuel ⊢; omega),
          happ]
    | dict sub =>
      have hsub : WFe sub := hv
      have hdata : encode_entries ((k, Value.dict sub) :: es') ++ rest =
          0 :: (k ++ 0 ::
            (encode_entries sub ++ 8 :: (encode_entries es' ++ rest))) := by
        simp [encode_entries, encode_value, write_cstring]
      rw [hdata] at hfuel ⊢
      cases fuel with
      | zero => omega
      | succ f =>
        have hinner :
            parse_section f
              (encode_entries sub ++ 8 :: (encode_entries es' ++ rest)) [] =
              some (sub, encode_entries es' ++ rest) := by
          rw [parse_encode_entries sub []
              (8 :: (encode_entries es' ++ rest)) f hsub (by simp)
              (by simp at hfuel ⊢; omega)]
          rw [List.length_cons, parse_section_step_end]
          simp
        rw [parse_section_step_dict f k _ acc hk1 hk0, hinner]
        show parse_section f (encode_entries es' ++ rest)
          (dictInsert k (Value.dict sub) acc) =
          parse_section (rest.length + 1) rest (acc ++ (k, Value.dict sub) :: es')
        rw [hins,
          parse_encode_entries es' (acc ++ [(k, Value.dict sub)]) rest f hwf'
            (hdisj' _) (by simp at hfuel ⊢; omega),
          happ]
termination_by sizeOf es

/-- Decode-of-encode for a whole well-formed tree. -/
theorem parse_write_roundtrip (es : Entries) (h : WFe es) :
    parse_vdf (write_binary_vdf es) = es := by
  have hmain := parse_encode_entries es [] [8]
    ((encode_entries es ++ [8]).length + 1) h (by simp) (by omega)
  unfold parse_vdf write_binary_vdf
  rw [hmain]
  simp [parse_section_step_end]

/-! ## The deterministic id generator (`src/src/core/utils/shortcut_utils.py`)

`generate_shortcut_appid` calls `zlib.crc32`, which is Python standard
library code, not part of this repository; `crc32` below is the standard
ISO-3309 / ITU-T CRC-32 that `zlib.crc32` documents: reflected polynomial
`0xEDB88320`, initial value and final xor `0xFFFFFFFF`, each byte xor-ed
into the register and followed by 8 shift-xor rounds. -/

/-- One reflected shift-xor round of CRC-32. -/
def crc32_round (crc : Nat) : Nat :=
  if crc % 2 = 1 then Nat.xor (crc / 2) 0xEDB88320 else crc / 2

/-- Absorb one byte into the CRC register: xor it in, then 8 rounds. -/
def crc32_update (crc b : Nat) : Nat :=
  crc32_round^[8] (Nat.xor crc b)

/-- ISO-3309 CRC-32 of a byte sequence (the checksum `zlib.crc32`
returns). -/
def crc32 (data : List Nat) : Nat :=
  Nat.xor (data.foldl crc32_update 0xFFFFFFFF) 0xFFFFFFFF

/-- `generate_shortcut_appid(name, exe)`: CRC-32 of the UTF-8 bytes of
`exe + name` (the executable path first), masked to 32 bits, with bit 31
forced on.  `name` and `exe` are the UTF-8 bytes of the Python strings. -/
def generate_shortcut_appid (name exe : List Nat) : Nat :=
  let key := exe ++ name
  let crc := crc32 key &&& 0xFFFFFFFF
  crc ||| 0x80000000

/-! ## The shortcut record mapping (`src/vdf_serializer.py`,
`src/NonSteamGame.py`)

`VDFSerializer` converts between lists of `NonSteamGame` objects and the
plain Python dicts the codec consumes; no byte-level work happens here, so
dict keys are Lean `String`s and values are a Python-value type. -/

/-- A Python value as it appears in the serializer's dicts: a `str`, an
`int`, or a nested `dict`. -/
inductive PyVal where
  | pstr (s : String)
  | pint (n : Int)
  | pdict (d : List (String × PyVal))

/-- Association-list lookup, the semantics of `d.get(key, default)` on a
Python dict (`getD` supplies the default). -/
def dlookup : List (String × PyVal) → String → Option PyVal
  | [], _ => none
  | (k, v) :: d, key => if k = key then some v else dlookup d key

/-- `NonSteamGame.__init__`: the 17 attributes, in assignment order.
Python is dynamically typed, so each attribute holds whatever value was
passed; the fields are therefore `PyVal`. -/
structure NonSteamGame where
  appid : PyVal
  AppName : PyVal
  Exe : PyVal
  StartDir : PyVal
  icon : PyVal
  ShortcutPath : PyVal
  LaunchOptions : PyVal
  IsHidden : PyVal
  AllowDesktopConfig : PyVal
  AllowOverlay : PyVal
  OpenVR : PyVal
  Devkit : PyVal
  DevkitGameID : PyVal
  DevkitOverrideAppID : PyVal
  LastPlayTime : PyVal
  FlatpakAppID : PyVal
  tags : PyVal

/-- `NonSteamGame.as_dict` (`self.__dict__`): the attributes as a dict, in
assignment order. -/
def NonSteamGame.as_dict (g : NonSteamGame) : List (String × PyVal) :=
  [("appid", g.appid), ("AppName", g.AppName), ("Exe", g.Exe),
   ("StartDir", g.StartDir), ("icon", g.icon),
   ("ShortcutPath", g.ShortcutPath), ("LaunchOptions", g.LaunchOptions),
   ("IsHidden", g.IsHidden), ("AllowDesktopConfig", g.AllowDesktopConfig),
   ("AllowOverlay", g.AllowOverlay), ("OpenVR", g.OpenVR),
   ("Devkit", g.Devkit), ("DevkitGameID", g.DevkitGameID),
   ("DevkitOverrideAppID", g.DevkitOverrideAppID),
   ("LastPlayTime", g.LastPlayTime), ("FlatpakAppID", g.FlatpakAppID),
   ("tags", g.tags)]

/-- The `enumerate`-driven loop of `games_to_vdf_dict`, starting at index
`i`: `shortcuts[str(i)] = {**game.as_dict()}`. -/
def shortcuts_entries (i : Nat) : List NonSteamGame → List (String × PyVal)
  | [] => []
  | g :: gs => (toString i, .pdict g.as_dict) :: shortcuts_entries (i + 1) gs

/-- `VDFSerializer.games_to_vdf_dict`: `{"shortcuts": {...}}` with the
games keyed by stringified positional index. -/
def games_to_vdf_dict (games : List NonSteamGame) : List (String × PyVal) :=
  [("shortcuts", .pdict (shortcuts_entries 0 games))]

/-- One iteration of `games_from_vdf_dict`: rebuild a `NonSteamGame` from
one shortcut's dict via `shortcut_data.get(field, default)`.  A non-dict
value makes Python raise (`.get` missing), modelled as `none`. -/
def game_from_entry : PyVal → Option NonSteamGame
  | .pdict d => some
      { appid := (dlookup d "appid").getD (.pint 0)
        AppName := (dlookup d "AppName").getD (.pstr "")
        Exe := (dlookup d "Exe").getD (.pstr "")
        StartDir := (dlookup d "StartDir").getD (.pstr "")
        icon := (dlookup d "icon").getD (.pstr "")
        ShortcutPath := (dlookup d "ShortcutPath").getD (.pstr "")
        LaunchOptions := (dlookup d "LaunchOptions").getD (.pstr "")
        IsHidden := (dlookup d "IsHidden").getD (.pint 0)
        AllowDesktopConfig := (dlookup d "AllowDesktopConfig").getD (.pint 1)
        AllowOverlay := (dlookup d "AllowOverlay").getD (.pint 1)
        OpenVR := (dlookup d "OpenVR").getD (.pint 0)
        Devkit := (dlookup d "Devkit").getD (.pint 0)
        DevkitGameID := (dlookup d "DevkitGameID").getD (.pstr "")
        DevkitOverrideAppID := (dlookup d "DevkitOverrideAppID").getD (.pint 0)
        LastPlayTime := (dlookup d "LastPlayTime").getD (.pint 0)
        FlatpakAppID := (dlookup d "FlatpakAppID").getD (.pstr "")
        tags := (dlookup d "tags").getD (.pdict []) }
  | _ => none

/-- The `for shortcut_key in shortcuts` loop: rebuild each game in
iteration (insertion) order, appending to `games`; the first failure
aborts, as the Python exception would. -/
def games_from_entries : List (String × PyVal) → Option (List NonSteamGame)
  | [] => some []
  | p :: rest =>
    match game_from_entry p.2 with
    | none => none
    | some g => (games_from_entries rest).map (fun gs => g :: gs)

/-- `VDFSerializer.games_from_vdf_dict`: iterate the entries of
`vdf_data.get("shortcuts", {})` in order and rebuild each game; `none`
models the exceptions Python would raise on non-dict data. -/
def games_from_vdf_dict (vdf_data : List (String × PyVal)) :
    Option (List NonSteamGame) :=
  match (dlookup vdf_data "shortcuts").getD (.pdict []) with
  | .pdict shortcuts => games_from_entries shortcuts
  | _ => none

theorem game_from_entry_as_dict (g : NonSteamGame) :
    game_from_entry (.pdict g.as_dict) = some g := by
  simp [game_from_entry, NonSteamGame.as_dict, dlookup]

theorem shortcuts_entries_keys (gs : List NonSteamGame) : ∀ i : Nat,
    (shortcuts_entries i gs).map Prod.fst =
      (List.range' i gs.length).map toString := by
  induction gs with
  | nil => intro i; simp [shortcuts_entries]
  | cons g gs ih =>
    intro i
    simp [shortcuts_entries, List.range', ih (i + 1)]

theorem shortcuts_entries_from (gs : List NonSteamGame) : ∀ i : Nat,
    games_from_entries (shortcuts_entries i gs) = some gs := by
  induction gs with
  | nil => intro i; simp [shortcuts_entries, games_from_entries]
  | cons g gs ih =>
    intro i
    simp [shortcuts_entries, games_from_entries, game_from_entry_as_dict,
      ih (i + 1)]

/-- A step of the decoder on a string entry whose value has no `0x00`
terminator before end-of-buffer: the key maps to the EMPTY string and the
cursor moves to end-of-buffer. -/
theorem parse_section_step_str_trunc (f : Nat) (k v : List Nat)
    (acc : Entries) (hk1 : k ≠ []) (hk0 : 0 ∉ k) (hv : 0 ∉ v) :
    parse_section (f + 1) (1 :: (k ++ 0 :: v)) acc =
      parse_section f [] (dictInsert k (.str []) acc) := by
  simp only [parse_section, read_cstring_terminated k v hk0,
    read_cstring_unterminated v hv]
  simp [hk1]

/-! ## The claims -/

/-- C1, counterexample: the tree `{"a": -1}` is built only from non-empty
string keys and supported value kinds, yet `decode(encode(tree)) ≠ tree`
(the decoder returns the unsigned 32-bit wrap `4294967295`). -/
theorem C1_counterexample :
    ([97] : List Nat) ≠ [] ∧
    parse_vdf (write_binary_vdf [([97], Value.int (-1))]) =
      [([97], Value.int 4294967295)] ∧
    parse_vdf (write_binary_vdf [([97], Value.int (-1))]) ≠
      [([97], Value.int (-1))] := by
  refine ⟨by decide, rfl, ?_⟩
  intro h
  rw [show parse_vdf (write_binary_vdf [([97], Value.int (-1))]) =
      [([97], Value.int 4294967295)] from rfl] at h
  simp at h

/-- C1 (amended): for every tree whose keys are non-empty, `0x00`-free and
unique per dict, whose string values are `0x00`-free, whose integers lie in
`[0, 2^64)` and whose float bit patterns fit 32 bits,
`decode(encode(tree)) = tree`. -/
theorem C1_roundtrip (tree : Entries) (h : WFe tree) :
    parse_vdf (write_binary_vdf tree) = tree :=
  parse_write_roundtrip tree h

/-- C1 witness: a concrete well-formed tree with a nested dict, a string,
an int32-range value, an int64-range value and a float round-trips. -/
theorem C1_roundtrip_witness :
    parse_vdf (write_binary_vdf
      [([107], Value.dict [([110], Value.int 7), ([102], Value.float 1078530011)]),
       ([115], Value.str [116, 101]),
       ([98], Value.int 9223372036854775807)]) =
      [([107], Value.dict [([110], Value.int 7), ([102], Value.float 1078530011)]),
       ([115], Value.str [116, 101]),
       ([98], Value.int 9223372036854775807)] :=
  C1_roundtrip _ (by simp [WFe, WFv])

/-- C2: the decoder is total: for every input buffer `data`, fuel
`data.length + 1` suffices for `parse_section` to return a dict (it never
signals failure), and `parse_vdf` returns that dict; malformed fields get
the documented defaults: too-short integer payloads give `0`, too-short
float payloads give `0.0` (bit pattern 0), and an unterminated string
gives the empty string with the cursor at end-of-buffer. -/
theorem C2_decode_total :
    (∀ data : List Nat, ∃ r : Entries × List Nat,
        parse_section (data.length + 1) data [] = some r ∧
        parse_vdf data = r.1) ∧
    (∀ data : List Nat, data.length < 4 → read_int32 data = (0, data)) ∧
    (∀ data : List Nat, data.length < 8 → read_int64 data = (0, data)) ∧
    (∀ data : List Nat, data.length < 4 → read_float32 data = (0, data)) ∧
    (∀ data : List Nat, 0 ∉ data → read_cstring data = ([], [])) := by
  refine ⟨?_, ?_, ?_, ?_, read_cstring_unterminated⟩
  · intro data
    obtain ⟨r, hr⟩ := parse_section_total (data.length + 1) data [] (by omega)
    exact ⟨r, hr, by simp [parse_vdf, hr]⟩
  · intro data h
    simp [read_int32, h]
  · intro data h
    simp [read_int64, h]
  · intro data h
    simp [read_float32, h]

/-- C2 witness: a malformed buffer (bare int32 tag, key, no payload)
decodes, and each default-producing read evaluated concretely. -/
theorem C2_decode_total_witness :
    (∃ r : Entries × List Nat,
        parse_section ([2, 97, 0].length + 1) [2, 97, 0] [] = some r ∧
        parse_vdf [2, 97, 0] = r.1) ∧
    read_int32 [9] = (0, [9]) ∧
    read_int64 [9] = (0, [9]) ∧
    read_float32 [9] = (0, [9]) ∧
    read_cstring [105] = ([], []) :=
  ⟨C2_decode_total.1 [2, 97, 0],
   C2_decode_total.2.1 [9] (by decide),
   C2_decode_total.2.2.1 [9] (by decide),
   C2_decode_total.2.2.2.1 [9] (by decide),
   C2_decode_total.2.2.2.2 [105] (by decide)⟩

/-- C3, counterexample: decoding `\x01 n \x00 i` (string value `i` with no
terminator) yields `{"n": ""}`, not `{"n": "i"}`: the partial bytes are
discarded, contradicting the claim. -/
theorem C3_counterexample :
    parse_vdf [1, 110, 0, 105] = [([110], Value.str [])] ∧
    parse_vdf [1, 110, 0, 105] ≠ [([110], Value.str [105])] := by
  refine ⟨rfl, ?_⟩
  intro h
  rw [show parse_vdf [1, 110, 0, 105] = [([110], Value.str [])] from rfl] at h
  simp at h

/-- C3 (amended): for every buffer whose last entry is a string value with
no terminating `0x00` before end-of-buffer, decoding maps that key to the
EMPTY string (the scanned bytes are discarded), the cursor advances to
end-of-buffer, and no exception is raised. -/
theorem C3_truncated_string (key v : List Nat) (acc : Entries)
    (hk1 : key ≠ []) (hk0 : 0 ∉ key) (hv : 0 ∉ v) :
    parse_section ((1 :: (key ++ 0 :: v)).length + 1) (1 :: (key ++ 0 :: v))
        acc = some (dictInsert key (Value.str []) acc, []) ∧
    parse_vdf (1 :: (key ++ 0 :: v)) = [(key, Value.str [])] := by
  have h1 : ∀ acc' : Entries,
      parse_section ((1 :: (key ++ 0 :: v)).length + 1) (1 :: (key ++ 0 :: v))
        acc' = some (dictInsert key (Value.str []) acc', []) := by
    intro acc'
    rw [show (1 :: (key ++ 0 :: v)).length + 1 =
        ((key ++ 0 :: v).length + 1) + 1 by simp]
    rw [parse_section_step_str_trunc _ key v acc' hk1 hk0 hv]
    rw [show (key ++ 0 :: v).length + 1 = (key ++ 0 :: v).length + 1 from rfl]
    simp [parse_section]
  refine ⟨h1 acc, ?_⟩
  rw [parse_vdf, h1 []]
  simp [dictInsert]

/-- C3 witness: the buffer `\x01 n \x00 i` decodes to `{"n": ""}` with the
cursor at end-of-buffer. -/
theorem C3_truncated_string_witness :
    parse_section 5 [1, 110, 0, 105] [] =
      some (dictInsert [110] (Value.str []) [], []) ∧
    parse_vdf [1, 110, 0, 105] = [([110], Value.str [])] :=
  C3_truncated_string [110] [105] [] (by decide) (by decide) (by decide)

/-- C4: the encoder emits tag `0x02` with the low 32 bits (masked,
little-endian) exactly when `-2^31 ≤ v ≤ 2^32 - 1`, and otherwise tag
`0x07` with the 8-byte masked little-endian payload; `0` encodes as tag
`0x02` with four zero payload bytes and `2^63 - 1` as tag `0x07`. -/
theorem C4_int_encoding (key : List Nat) (v : Int) :
    (-2147483648 ≤ v ∧ v ≤ 4294967295 →
      encode_value key (Value.int v) =
        2 :: (write_cstring key ++ le32 (v % (2^32 : Int)).toNat)) ∧
    (¬(-2147483648 ≤ v ∧ v ≤ 4294967295) →
      encode_value key (Value.int v) =
        7 :: (write_cstring key ++ le64 (v % (2^64 : Int)).toNat)) ∧
    encode_value [97] (Value.int 0) = [2, 97, 0, 0, 0, 0, 0] ∧
    encode_value [97] (Value.int (2^63 - 1)) =
      [7, 97, 0, 255, 255, 255, 255, 255, 255, 255, 127] := by
  refine ⟨?_, ?_, by decide, by decide⟩
  · intro h
    rw [encode_value, if_pos h]
  · intro h
    rw [encode_value, if_neg h]

/-- C4 witness: the branch equations applied at `-1` (Int32 side) and
`2^32` (Int64 side). -/
theorem C4_int_encoding_witness :
    encode_value [98] (Value.int (-1)) =
      2 :: (write_cstring [98] ++ le32 (((-1 : Int)) % (2^32 : Int)).toNat) ∧
    encode_value [98] (Value.int (2^32)) =
      7 :: (write_cstring [98] ++ le64 (((2^32 : Int)) % (2^64 : Int)).toNat) :=
  ⟨(C4_int_encoding [98] (-1)).1 (by decide),
   (C4_int_encoding [98] (2^32)).2.1 (by decide)⟩

/-- C5: every negative integer in the Int32 encoding range round-trips
through encode → decode to its unsigned 32-bit two's-complement value
`v + 2^32`. -/
theorem C5_negative_int32 (key : List Nat) (v : Int) (hk1 : key ≠ [])
    (hk0 : 0 ∉ key) (hlo : -2147483648 ≤ v) (hhi : v < 0) :
    parse_vdf (write_binary_vdf [(key, Value.int v)]) =
      [(key, Value.int (v + 4294967296))] := by
  have hmod : v % (2^32 : Int) = v + 4294967296 := by omega
  have henc : encode_value key (Value.int v) =
      2 :: (write_cstring key ++ le32 (v + 4294967296).toNat) := by
    rw [encode_value, if_pos ⟨hlo, by omega⟩, hmod]
  have hdata : write_binary_vdf [(key, Value.int v)] =
      2 :: (key ++ 0 :: (le32 (v + 4294967296).toNat ++ [8])) := by
    simp [write_binary_vdf, encode_entries, henc, write_cstring]
  have hm32 : (v + 4294967296).toNat < 2^32 := by omega
  have hcast : (((v + 4294967296).toNat : Nat) : Int) = v + 4294967296 := by
    omega
  rw [parse_vdf, hdata]
  rw [show (2 :: (key ++ 0 :: (le32 (v + 4294967296).toNat ++ [8]))).length + 1 =
      ((key ++ 0 :: (le32 (v + 4294967296).toNat ++ [8])).length + 1) + 1
    by simp]
  rw [parse_section_step_int32 _ _ key _ [] hk1 hk0 hm32]
  rw [parse_section_step_end]
  simp [dictInsert, hcast]

/-- C5 witness: `-1` round-trips to `4294967295`. -/
theorem C5_negative_int32_witness :
    parse_vdf (write_binary_vdf [([97], Value.int (-1))]) =
      [([97], Value.int 4294967295)] := by
  have h := C5_negative_int32 [97] (-1) (by decide) (by decide) (by decide)
    (by decide)
  norm_num at h
  exact h

/-- C6: `generate_shortcut_appid` equals the CRC-32 of the bytes of
`exe ++ name` (executable path first) masked to 32 bits and or-ed with
`0x80000000`; it is deterministic, and bit 31 of the result is always
set. -/
theorem C6_generate_id (name exe : List Nat) :
    generate_shortcut_appid name exe =
      (crc32 (exe ++ name) &&& 0xFFFFFFFF) ||| 0x80000000 ∧
    (∀ name2 exe2 : List Nat, name = name2 → exe = exe2 →
      generate_shortcut_appid name exe = generate_shortcut_appid name2 exe2) ∧
    Nat.testBit (generate_shortcut_appid name exe) 31 = true := by
  refine ⟨rfl, fun name2 exe2 h1 h2 => by rw [h1, h2], ?_⟩
  show Nat.testBit ((crc32 (exe ++ name) &&& 0xFFFFFFFF) ||| 0x80000000) 31 =
    true
  rw [Nat.testBit_lor]
  simp [show Nat.testBit 0x80000000 31 = true from by decide]

/-- C6 witness: determinism and the high bit at a concrete input. -/
theorem C6_generate_id_witness :
    generate_shortcut_appid [97] [98] = generate_shortcut_appid [97] [98] ∧
    Nat.testBit (generate_shortcut_appid [97] [98]) 31 = true :=
  ⟨(C6_generate_id [97] [98]).2.1 [97] [98] rfl rfl,
   (C6_generate_id [97] [98]).2.2⟩

/-- C7: serializing `N` games produces `{"shortcuts": {...}}` whose
children are keyed by the stringified indices `"0" .. str(N-1)` in order,
and deserializing that dict returns exactly the original list (same
length, every field equal). -/
theorem C7_serializer_roundtrip (games : List NonSteamGame) :
    (shortcuts_entries 0 games).map Prod.fst =
      (List.range games.length).map toString ∧
    games_to_vdf_dict games =
      [("shortcuts", PyVal.pdict (shortcuts_entries 0 games))] ∧
    games_from_vdf_dict (games_to_vdf_dict games) = some games := by
  refine ⟨?_, rfl, ?_⟩
  · rw [shortcuts_entries_keys games 0, List.range_eq_range']
  · simp [games_from_vdf_dict, games_to_vdf_dict, dlookup,
      shortcuts_entries_from games 0]

/-- C8: a Section tag with an empty key stores the subsection under the
synthetic key `_subsection_<n>` where `n` is the number of entries already
collected in the enclosing dict; a collision with an existing key is not
specially resolved — the later entry overwrites the earlier one (concrete
buffer: a string entry keyed `_subsection_1` followed by an empty-key
subsection when one entry is collected). -/
theorem C8_synthetic_key (f : Nat) (T : List Nat) (acc : Entries) :
    parse_section (f + 1) (0 :: 0 :: T) acc =
      (match parse_section f T [] with
       | none => none
       | some (sub, rest2) =>
         parse_section f rest2
           (dictInsert (synthKey acc.length) (.dict sub) acc)) ∧
    parse_vdf ([1] ++ synthKey 1 ++ [0, 65, 0] ++ [0, 0, 8] ++ [8]) =
      [(synthKey 1, Value.dict [])] :=
  ⟨parse_section_step_dict_empty f T acc, rfl⟩

/-- C9: a non-Section entry tag (other than the `0x08` end marker, which
closes the section before any key is read) followed immediately by a
`0x00` byte (empty key) contributes nothing to the dict and consumes no
payload: parsing continues with the byte right after the empty key as the
next entry's type tag. -/
theorem C9_skip_empty_key (f t : Nat) (T : List Nat) (acc : Entries)
    (h8 : t ≠ 8) (h0 : t ≠ 0) :
    parse_section (f + 1) (t :: 0 :: T) acc = parse_section f T acc :=
  parse_section_step_skip f t T acc h8 h0

/-- C9 witness: tag `0x05` with an empty key is skipped and the following
byte is read as the next tag. -/
theorem C9_skip_empty_key_witness :
    parse_section 3 [5, 0, 8] [] = parse_section 2 [8] [] :=
  C9_skip_empty_key 2 5 [8] [] (by decide) (by decide)

/-- C10: the decoder terminates on every finite buffer: whenever a parse
returns, the remaining suffix is no longer than the input and strictly
shorter when the input was non-empty (each loop iteration consumes at
least the tag byte), and fuel `data.length + 1` loop iterations always
suffice for the parse to return. -/
theorem C10_termination (fuel : Nat) (data : List Nat) (acc : Entries) :
    (∀ r : Entries × List Nat, parse_section fuel data acc = some r →
      r.2.length ≤ data.length ∧ (data ≠ [] → r.2.length < data.length)) ∧
    (data.length < fuel → ∃ r, parse_section fuel data acc = some r) :=
  ⟨fun r h => parse_section_le fuel data acc r h,
   fun h => parse_section_total fuel data acc h⟩

/-- C10 witness: at the concrete buffer `[8]`, the parse returns with the
cursor strictly advanced, and canonical fuel suffices. -/
theorem C10_termination_witness :
    ((([], []) : Entries × List Nat).2.length ≤ [8].length ∧
      (([8] : List Nat) ≠ [] →
        (([], []) : Entries × List Nat).2.length < [8].length)) ∧
    ∃ r, parse_section 2 [8] [] = some r :=
  ⟨(C10_termination 2 [8] []).1 ([], []) rfl,
   (C10_termination 2 [8] []).2 (by decide)⟩

end SteamShelf
